import Mathlib

/-!
Verification of the line-block patching script `fix_orders.py`.

The script reads a text file as a list of lines, scans it once with an explicit
cursor `i`, and rewrites it:
* at cursor `i` it tests `"router.get('/'," in lines[i] and "Get all orders" in lines[i-1]`
  (the anchor test, line 17 of the script);
* the first anchored block is replaced by a hardcoded template, the cursor then
  jumps past the first line containing `".toArray();"` (lines 18-57);
* every later anchored block is dropped, the cursor jumping past the first line
  containing `"});"` (lines 58-64);
* every other line is copied unchanged (lines 66-67);
* the result is written back by reopening the same path in write mode (lines 69-70).

The scan is embedded below as `patch`, generic in the marker / signature /
terminator predicates and in the replacement template, exactly following the
control flow of the script; `scanEnd` is the final cursor value of the inner
`while` loops, and `pyPrev` reproduces Python's index arithmetic for
`lines[i-1]` (at `i = 0` Python reads `lines[-1]`, the last line).
-/

namespace FixOrders

variable {α : Type}

/-- Python's index arithmetic for the expression `lines[i-1]` used by the anchor
test: for `i ≥ 1` it denotes position `i - 1`, while at `i = 0` Python's negative
indexing makes `lines[-1]` denote the last position `n - 1`. -/
def pyPrev (n i : Nat) : Nat :=
  if i = 0 then n - 1 else i - 1

/-- The anchor test the script performs at cursor `i` (fix_orders.py line 17):
the signature predicate on the current line and the marker predicate on the line
Python's `lines[i-1]` denotes.  Positions at or past the end never match. -/
def anchorAt (marker sig : α → Bool) (lines : List α) (i : Nat) : Bool :=
  if h : i < lines.length then
    sig (lines.get ⟨i, h⟩) &&
      marker (lines.get ⟨pyPrev lines.length i, by simp only [pyPrev]; split <;> omega⟩)
  else
    false

/-- Final cursor value of the script's inner loops
`while i < len(lines) and pat not in lines[i]: i += 1`
(fix_orders.py lines 54-55 and 61-62) when started at `i`: the position of the
first line at or after `i` satisfying `p`, or `lines.length` when no such line
exists before the end of the sequence. -/
def scanEnd (p : α → Bool) (lines : List α) (i : Nat) : Nat :=
  i + ((lines.drop i).takeWhile (fun l => ! p l)).length

/-- Fueled form of the script's main loop `while i < len(lines)` (fix_orders.py
lines 13-67).  `foundFirst` is the script's `found_first_route` flag.  At an
anchor position the first branch (lines 18-57) emits the replacement template
and resumes just past the first line satisfying `term1` (the script's
`".toArray();"` scan); the later-occurrence branch (lines 58-64) emits nothing
and resumes just past the first line satisfying `term2` (the script's `"});"`
scan); at any other position the current line is copied (lines 66-67).  Each
iteration advances the cursor by at least one, so fuel `lines.length` - used by
`patch` below - always reaches the loop's exit condition. -/
def patchGo (marker sig term1 term2 : α → Bool) (template : List α) (lines : List α) :
    Nat → Nat → Bool → List α
  | 0, _, _ => []
  | fuel + 1, i, foundFirst =>
    if h : i < lines.length then
      if anchorAt marker sig lines i then
        if foundFirst then
          patchGo marker sig term1 term2 template lines fuel (scanEnd term2 lines i + 1) true
        else
          template ++
            patchGo marker sig term1 term2 template lines fuel (scanEnd term1 lines i + 1) true
      else
        lines.get ⟨i, h⟩ :: patchGo marker sig term1 term2 template lines fuel (i + 1) foundFirst
    else
      []

/-- The whole scan of fix_orders.py lines 8-67: run the main loop from cursor 0
with the `found_first_route` flag unset. -/
def patch (marker sig term1 term2 : α → Bool) (template : List α) (lines : List α) : List α :=
  patchGo marker sig term1 term2 template lines lines.length 0 false

/-- The main loop restarted at an arbitrary cursor, with the canonical fuel
`lines.length` (enough from every starting cursor). -/
def patchFrom (marker sig term1 term2 : α → Bool) (template : List α) (lines : List α)
    (i : Nat) (foundFirst : Bool) : List α :=
  patchGo marker sig term1 term2 template lines lines.length i foundFirst

/-- Fueled block decomposition of the scan: the list of `(anchor, end)` cursor
pairs the main loop matches, in scan order, where `end` is the final cursor of
the corresponding terminator scan (`term1` for the block met with the
`found_first_route` flag unset, `term2` afterwards).  It follows exactly the
cursor movements of `patchGo`. -/
def blocksGo (marker sig term1 term2 : α → Bool) (lines : List α) :
    Nat → Nat → Bool → List (Nat × Nat)
  | 0, _, _ => []
  | fuel + 1, i, foundFirst =>
    if i < lines.length then
      if anchorAt marker sig lines i then
        if foundFirst then
          (i, scanEnd term2 lines i) ::
            blocksGo marker sig term1 term2 lines fuel (scanEnd term2 lines i + 1) true
        else
          (i, scanEnd term1 lines i) ::
            blocksGo marker sig term1 term2 lines fuel (scanEnd term1 lines i + 1) true
      else
        blocksGo marker sig term1 term2 lines fuel (i + 1) foundFirst
    else
      []

/-- Block decomposition from an arbitrary cursor with the canonical fuel. -/
def blocksFrom (marker sig term1 term2 : α → Bool) (lines : List α)
    (i : Nat) (foundFirst : Bool) : List (Nat × Nat) :=
  blocksGo marker sig term1 term2 lines lines.length i foundFirst

/-- The slice of `l` with positions in `[a, b)`. -/
def seg (l : List α) (a b : Nat) : List α :=
  (l.take b).drop a

/-- Splice description of the scan's output: copy the input up to the next
block's anchor, emit the template in place of the block met with the flag unset
and nothing for later blocks, resume after each block's end, and copy the tail
once no block remains. -/
def render (template : List α) (lines : List α) : Nat → Bool → List (Nat × Nat) → List α
  | i, _, [] => lines.drop i
  | i, foundFirst, (a, e) :: bs =>
    seg lines i a ++ (if foundFirst then [] else template) ++
      render template lines (e + 1) true bs

/-- The input minus the given `(anchor, end)` spans: copies `[p, a)`, skips
`[a, e]`, continues after `e`.  Describes what the later-occurrence branch keeps. -/
def dropBlocks (lines : List α) : Nat → List (Nat × Nat) → List α
  | p, [] => lines.drop p
  | p, (a, e) :: bs => seg lines p a ++ dropBlocks lines (e + 1) bs

/-- Select the input lines at the given positions, in the given order. -/
def sel (lines : List α) (ixs : List Nat) : List α :=
  ixs.filterMap fun k => lines[k]?

/-- Observable effects of the script's write phase on the content stored at the
target path (fix_orders.py lines 69-70): Python's `open(path, "w")` truncates
the file at that path the moment it succeeds, and `f.writelines(new_lines)`
then stores the new content.  No other location is involved. -/
inductive WriteEvent (α : Type) where
  | truncate : WriteEvent α
  | writeAll : List α → WriteEvent α

/-- Content stored at the target path after one write-phase event. -/
def applyEvent (_cur : List α) : WriteEvent α → List α
  | WriteEvent.truncate => []
  | WriteEvent.writeAll c => c

/-- Content stored at the target path after a sequence of write-phase events,
starting from the original content. -/
def fileAfter (orig : List α) (evs : List (WriteEvent α)) : List α :=
  evs.foldl applyEvent orig

/-- The write phase of fix_orders.py lines 69-70, as its event sequence at the
target path: the truncating open, then the write of the patched lines.  The
script uses no temporary location and no rename. -/
def writePhase (out : List α) : List (WriteEvent α) :=
  [WriteEvent.truncate, WriteEvent.writeAll out]

/-- Line predicate: equality with a fixed line (used to instantiate the
patterns on concrete test sequences). -/
def litEq (a l : String) : Bool :=
  l == a

/-- Line predicate: the line starts with a fixed text. -/
def litPre (a l : String) : Bool :=
  a.toList.isPrefixOf l.toList

/-- Contiguous-sublist test: does `needle` occur inside `hay`? -/
def listInfixOf (needle : List Char) : List Char → Bool
  | [] => needle.isEmpty
  | a :: t => needle.isPrefixOf (a :: t) || listInfixOf needle t

/-- Python's substring test `needle in hay`. -/
def strContains (needle hay : String) : Bool :=
  listInfixOf needle.toList hay.toList

/-- An apostrophe, spelled via its code point. -/
def apos : String :=
  String.mk [Char.ofNat 39]

/-- The hardcoded signature text of fix_orders.py line 17. -/
def routeSigText : String :=
  "router.get(" ++ apos ++ "/" ++ apos ++ ","

/-- The hardcoded marker text of fix_orders.py line 17. -/
def routeMarkerText : String :=
  "Get all orders"

/-- The hardcoded first-occurrence terminator text of fix_orders.py line 54. -/
def firstTermText : String :=
  ".toArray();"

/-- The hardcoded later-occurrence terminator text of fix_orders.py line 61. -/
def restTermText : String :=
  "\x7d);"

/-- The script's marker predicate: `"Get all orders" in line`. -/
def fixOrdersMarker (l : String) : Bool :=
  strContains routeMarkerText l

/-- The script's signature predicate: `"router.get('/'," in line`. -/
def fixOrdersSig (l : String) : Bool :=
  strContains routeSigText l

/-- The script's first-occurrence terminator predicate: `".toArray();" in line`. -/
def fixOrdersTerm1 (l : String) : Bool :=
  strContains firstTermText l

/-- The script's later-occurrence terminator predicate: `"});" in line`. -/
def fixOrdersTerm2 (l : String) : Bool :=
  strContains restTermText l

/-- Block decomposition of the script's scan with its hardcoded predicates
(the replacement template of lines 21-49 plays no part in where blocks start
and end, so it is not needed here). -/
def fixOrdersBlocks (lines : List String) : List (Nat × Nat) :=
  blocksFrom fixOrdersMarker fixOrdersSig fixOrdersTerm1 fixOrdersTerm2 lines 0 false

/-- Test sequence with one anchor (marker `"m"` then signature `"s"` at position 2)
and no line satisfying the first-occurrence terminator `"t"` at or after it. -/
def exUnresolved : List String :=
  ["x", "m", "s", "A"]

/-- Test sequence with exactly one anchor (marker `"m"` at position 0, signature
`"s"` at position 1) and terminator `"e"` at position 2. -/
def exSingle : List String :=
  ["m", "s", "e", "Y"]

/-- Test sequence with two anchors (signatures at positions 2 and 6, markers just
before them) and terminator `"e"` ending each block (positions 4 and 8). -/
def exMulti : List String :=
  ["X", "m", "s", "A", "e", "m", "s", "B", "e", "Y"]

/-- The spec's concrete scenario input. -/
def exScenario : List String :=
  ["X\n", "// marker\n", "sig(\n", "A\n", "end\n", "// marker\n", "sig(\n", "B\n", "end\n", "Y\n"]

/-- Test sequence whose first line satisfies the signature predicate `"s"` and
whose last line satisfies the marker predicate `"m"`; no line at a position
`i ≥ 1` has the marker on the line before it. -/
def exWrap : List String :=
  ["s", "t", "m"]

/-- Test sequence with no two adjacent lines matching (marker, signature) =
(`"m"`, `"s"`), but whose first line is the signature and whose last line is the
marker. -/
def exNoMatch : List String :=
  ["s", "u", "t", "m"]

/-- Test sequence for the script's hardcoded patterns: two anchored blocks
(signatures at positions 1 and 5); the second block contains a line matching the
first-occurrence terminator `".toArray();"` (position 6) before the line
matching the later-occurrence terminator `"});"` (position 7). -/
def exTwoTerms : List String :=
  ["// " ++ routeMarkerText,
   "  " ++ routeSigText ++ " async (req, res) =>",
   "      .toArray();",
   "  foo;",
   "// " ++ routeMarkerText,
   "  " ++ routeSigText ++ " async (req, res) =>",
   "      .toArray();",
   "  \x7d);",
   "export default router;"]

/-- C1: counterexample.  On `exUnresolved` the anchor at position 2 (marker
`"m"`, signature `"s"`) has no line satisfying the first-occurrence terminator
`"t"` at or after it, yet the scan does not fail and does not stop: it produces
an output sequence and silently consumes the remaining line `"A"`, contradicting
the claim that the operation fails with an UnresolvedBlock error and produces no
output sequence. -/
theorem C1_counterexample :
    anchorAt (litEq "m") (litEq "s") exUnresolved 2 = true ∧
      (exUnresolved.drop 2).all (fun l => ! litEq "t" l) = true ∧
      patch (litEq "m") (litEq "s") (litEq "t") (litEq "u") ["T"] exUnresolved =
        ["x", "m", "T"] ∧
      "A" ∉ patch (litEq "m") (litEq "s") (litEq "t") (litEq "u") ["T"] exUnresolved := by
  decide

/-- C2: counterexample.  On `exSingle` the only anchor is at position 1 (its
marker line `"m"` is at position 0) and its terminator is at position 2.  The
claim predicts the output `[lines strictly before the marker line] ++ template
++ [lines after the terminator] = ["T", "Y"]`, but the scan has already copied
the marker line before recognizing the anchor, giving `["m", "T", "Y"]`. -/
theorem C2_counterexample :
    patch (litEq "m") (litEq "s") (litEq "e") (litEq "e") ["T"] exSingle = ["m", "T", "Y"] ∧
      (["m", "T", "Y"] : List String) ≠ ["T", "Y"] := by
  decide

/-- C3: counterexample.  On `exMulti` there are two anchored blocks (signatures
at positions 2 and 6).  The claim says every line of the second matched block,
including its marker line, is omitted, which would leave at most one `"m"` in
the output; the scan copies the second marker line (position 5) before
recognizing the anchor at position 6, so `"m"` occurs twice in the output. -/
theorem C3_counterexample :
    patch (litEq "m") (litEq "s") (litEq "e") (litEq "e") ["T"] exMulti =
      ["X", "m", "T", "m", "Y"] ∧
      (["X", "m", "T", "m", "Y"] : List String).count "m" = 2 ∧
      ¬ (["X", "m", "T", "m", "Y"] : List String).count "m" ≤ 1 := by
  decide

/-- C4: counterexample.  On the spec's concrete scenario the scan returns a
six-line sequence: the second block's marker line `"// marker\n"` (position 5)
is copied before the anchor at position 6 is recognized, so the output is not
the claimed five-line sequence. -/
theorem C4_counterexample :
    patch (litEq "// marker\n") (litPre "sig(") (litEq "end\n") (litEq "end\n")
        ["T1\n", "T2\n"] exScenario =
      ["X\n", "// marker\n", "T1\n", "T2\n", "// marker\n", "Y\n"] ∧
      (["X\n", "// marker\n", "T1\n", "T2\n", "// marker\n", "Y\n"] : List String) ≠
        ["X\n", "// marker\n", "T1\n", "T2\n", "Y\n"] := by
  decide

/-- C4 (amended): on the spec's concrete scenario input, with anchor =
(line equals `"// marker\n"`, line starts with `"sig("`), terminator =
(line equals `"end\n"`) and template `["T1\n", "T2\n"]`, the scan returns
`["X\n", "// marker\n", "T1\n", "T2\n", "// marker\n", "Y\n"]`: the first block
is replaced by the template, the second block's signature line through its
terminator line are dropped, and the second block's marker line is kept. -/
theorem C4_amended :
    patch (litEq "// marker\n") (litPre "sig(") (litEq "end\n") (litEq "end\n")
        ["T1\n", "T2\n"] exScenario =
      ["X\n", "// marker\n", "T1\n", "T2\n", "// marker\n", "Y\n"] := by
  decide

/-- C5: the code violates the claim.  On `exWrap` no position `i ≥ 1` matches
the anchor pattern, but at cursor 0 the scan evaluates the marker predicate on
`lines[-1]` - Python's negative indexing denotes the last line `"m"` - so
position 0 starts a block and the input is rewritten. -/
theorem C5_code_bug :
    anchorAt (litEq "m") (litEq "s") exWrap 0 = true ∧
      patch (litEq "m") (litEq "s") (litEq "t") (litEq "u") ["T"] exWrap = ["T", "m"] ∧
      (["T", "m"] : List String) ≠ exWrap := by
  decide

/-- C6: counterexample.  With the script's hardcoded predicates, on `exTwoTerms`
the first block (anchor 1) ends at position 2, the first line at or after 1
containing `".toArray();"`; but the second block (anchor 5) ends at position 7,
not at position 6 where the first `".toArray();"` line at or after 5 sits, and
the first `"});"` line at or after 1 is position 7, not the first block's end 2.
No single terminator predicate determines the end of both blocks: the code
hardcodes `".toArray();"` for the first occurrence and `"});"` for the rest. -/
theorem C6_counterexample :
    fixOrdersBlocks exTwoTerms = [(1, 2), (5, 7)] ∧
      scanEnd fixOrdersTerm1 exTwoTerms 1 = 2 ∧
      scanEnd fixOrdersTerm1 exTwoTerms 5 = 6 ∧
      scanEnd fixOrdersTerm2 exTwoTerms 1 = 7 ∧
      (7 : Nat) ≠ 6 ∧ (2 : Nat) ≠ 7 := by
  decide

/-- C7: the code violates the claim.  `exNoMatch` contains no pair of adjacent
lines matching (marker `"m"`, signature `"s"`), so the claim predicts the
identity output; but the first line satisfies the signature predicate and the
last line the marker predicate, and the scan's `lines[i-1]` test at cursor 0
(Python negative indexing) reads the last line, so the input is rewritten. -/
theorem C7_code_bug :
    ((List.range 3).all fun k =>
        ! (litEq "s" (exNoMatch.getD (k + 1) "") && litEq "m" (exNoMatch.getD k ""))) = true ∧
      patch (litEq "m") (litEq "s") (litEq "t") (litEq "u") ["T"] exNoMatch = ["T", "m"] ∧
      (["T", "m"] : List String) ≠ exNoMatch := by
  decide

/-- C9: counterexample.  The script's write phase opens the target path in
write mode, which truncates it before the new content is written (fix_orders.py
lines 69-70).  After the truncating open and before the write completes, the
content observable at the target path is `[]` - neither the original content
`["a"]` nor the final content `["b"]` - so a truncated state is observable,
contradicting the temporary-file-plus-atomic-move discipline the claim asserts. -/
theorem C9_counterexample :
    fileAfter ["a"] ((writePhase ["b"]).take 1) = ([] : List String) ∧
      ([] : List String) ≠ ["a"] ∧ ([] : List String) ≠ ["b"] := by
  decide

/-- C9 (amended): the script writes the result directly to the target path with
no temporary location and no rename: a completed write phase stores the patched
output at the target path, and the state after the truncating open alone - the
state left behind if the write fails after opening - is the empty content, not
the original.  Only a failure before the write phase starts (such as a read
failure) leaves the original content in place. -/
theorem C9_amended (orig out : List α) :
    fileAfter orig (writePhase out) = out ∧
      fileAfter orig ((writePhase out).take 1) = [] := by
  exact ⟨rfl, rfl⟩

theorem scanEnd_ge (p : α → Bool) (lines : List α) (i : Nat) : i ≤ scanEnd p lines i :=
  Nat.le_add_right i _

theorem scanEnd_le (p : α → Bool) (lines : List α) (i : Nat) (h : i ≤ lines.length) :
    scanEnd p lines i ≤ lines.length := by
  have h1 : ((lines.drop i).takeWhile (fun l => ! p l)).length ≤ (lines.drop i).length :=
    (List.takeWhile_sublist _).length_le
  have h2 : (lines.drop i).length = lines.length - i := List.length_drop i lines
  simp only [scanEnd]
  omega

theorem takeWhile_hit {q : α → Bool} :
    ∀ (l : List α) (x : α), l[(l.takeWhile q).length]? = some x → q x = false := by
  intro l
  induction l with
  | nil => intro x hx; simp at hx
  | cons a t ih =>
    intro x hx
    by_cases hqa : q a
    · rw [List.takeWhile_cons_of_pos hqa] at hx
      simp only [List.length_cons, List.getElem?_cons_succ] at hx
      exact ih x hx
    · rw [List.takeWhile_cons_of_neg hqa] at hx
      simp only [List.length_nil, List.getElem?_cons_zero, Option.some.injEq] at hx
      subst hx
      simpa using hqa

theorem takeWhile_min {q : α → Bool} :
    ∀ (l : List α) (m : Nat) (x : α),
      m < (l.takeWhile q).length → l[m]? = some x → q x = true := by
  intro l
  induction l with
  | nil => intro m x hm hx; simp at hx
  | cons a t ih =>
    intro m x hm hx
    by_cases hqa : q a
    · rw [List.takeWhile_cons_of_pos hqa] at hm
      cases m with
      | zero =>
        simp only [List.getElem?_cons_zero, Option.some.injEq] at hx
        subst hx; exact hqa
      | succ m =>
        simp only [List.length_cons, Nat.succ_lt_succ_iff] at hm
        simp only [List.getElem?_cons_succ] at hx
        exact ih m x hm hx
    · rw [List.takeWhile_cons_of_neg hqa] at hm
      simp at hm

theorem scanEnd_hit (p : α → Bool) (lines : List α) (i : Nat) (x : α)
    (hx : lines[scanEnd p lines i]? = some x) : p x = true := by
  have hd : (lines.drop i)[((lines.drop i).takeWhile (fun l => ! p l)).length]? = some x := by
    rw [List.getElem?_drop]
    exact hx
  have := takeWhile_hit (q := fun l => ! p l) (lines.drop i) x hd
  simpa using this

theorem scanEnd_min (p : α → Bool) (lines : List α) (i j : Nat) (x : α)
    (hij : i ≤ j) (hjs : j < scanEnd p lines i) (hx : lines[j]? = some x) : p x = false := by
  have hd : (lines.drop i)[j - i]? = some x := by
    rw [List.getElem?_drop]
    have : i + (j - i) = j := by omega
    rw [this]
    exact hx
  have hm : j - i < ((lines.drop i).takeWhile (fun l => ! p l)).length := by
    simp only [scanEnd] at hjs
    omega
  have := takeWhile_min (q := fun l => ! p l) (lines.drop i) (j - i) x hm hd
  simpa using this

theorem scanEnd_all_missed (p : α → Bool) (lines : List α) (i : Nat)
    (hi : i ≤ lines.length)
    (h : (lines.drop i).all (fun l => ! p l) = true) : scanEnd p lines i = lines.length := by
  have hself : (lines.drop i).takeWhile (fun l => ! p l) = lines.drop i :=
    List.takeWhile_eq_self_iff.mpr (fun x hx => List.all_eq_true.mp h x hx)
  simp only [scanEnd, hself, List.length_drop]
  omega

theorem patchGo_stop (marker sig term1 term2 : α → Bool) (template lines : List α)
    (fuel i : Nat) (ff : Bool) (h : lines.length ≤ i) :
    patchGo marker sig term1 term2 template lines fuel i ff = [] := by
  cases fuel with
  | zero => rfl
  | succ fuel =>
    simp only [patchGo]
    rw [dif_neg (by omega)]

theorem patchGo_stable (marker sig term1 term2 : α → Bool) (template lines : List α) :
    ∀ (fuel fuel' i : Nat) (ff : Bool),
      lines.length ≤ i + fuel → lines.length ≤ i + fuel' →
      patchGo marker sig term1 term2 template lines fuel i ff =
        patchGo marker sig term1 term2 template lines fuel' i ff := by
  intro fuel
  induction fuel with
  | zero =>
    intro fuel' i ff h h'
    rw [patchGo_stop _ _ _ _ _ _ _ _ _ (by omega),
      patchGo_stop _ _ _ _ _ _ _ _ _ (by omega)]
  | succ fuel ih =>
    intro fuel' i ff h h'
    by_cases hi : i < lines.length
    · cases fuel' with
      | zero => omega
      | succ fuel' =>
        simp only [patchGo]
        rw [dif_pos hi, dif_pos hi]
        by_cases ha : anchorAt marker sig lines i
        · rw [if_pos ha, if_pos ha]
          cases ff with
          | false =>
            simp only [Bool.false_eq_true, if_neg, ite_false]
            have hge := scanEnd_ge term1 lines i
            rw [ih fuel' (scanEnd term1 lines i + 1) true (by omega) (by omega)]
          | true =>
            simp only [ite_true]
            have hge := scanEnd_ge term2 lines i
            rw [ih fuel' (scanEnd term2 lines i + 1) true (by omega) (by omega)]
        · rw [if_neg ha, if_neg ha]
          rw [ih fuel' (i + 1) ff (by omega) (by omega)]
    · rw [patchGo_stop _ _ _ _ _ _ _ _ _ (by omega),
        patchGo_stop _ _ _ _ _ _ _ _ _ (by omega)]

theorem patchFrom_stop (marker sig term1 term2 : α → Bool) (template lines : List α)
    (i : Nat) (ff : Bool) (h : lines.length ≤ i) :
    patchFrom marker sig term1 term2 template lines i ff = [] :=
  patchGo_stop _ _ _ _ _ _ _ _ _ h

theorem patchFrom_pass (marker sig term1 term2 : α → Bool) (template lines : List α)
    (i : Nat) (ff : Bool) (h : i < lines.length)
    (ha : anchorAt marker sig lines i = false) :
    patchFrom marker sig term1 term2 template lines i ff =
      lines.get ⟨i, h⟩ :: patchFrom marker sig term1 term2 template lines (i + 1) ff := by
  have hl : lines.length = (lines.length - 1) + 1 := by omega
  unfold patchFrom
  conv_lhs => rw [hl]
  simp only [patchGo]
  rw [dif_pos h, if_neg (by simp [ha])]
  rw [patchGo_stable _ _ _ _ _ _ (lines.length - 1) lines.length (i + 1) ff (by omega) (by omega)]

theorem patchFrom_anchor_first (marker sig term1 term2 : α → Bool) (template lines : List α)
    (i : Nat) (h : i < lines.length)
    (ha : anchorAt marker sig lines i = true) :
    patchFrom marker sig term1 term2 template lines i false =
      template ++
        patchFrom marker sig term1 term2 template lines (scanEnd term1 lines i + 1) true := by
  have hl : lines.length = (lines.length - 1) + 1 := by omega
  have hge := scanEnd_ge term1 lines i
  unfold patchFrom
  conv_lhs => rw [hl]
  simp only [patchGo]
  rw [dif_pos h, if_pos ha]
  simp only [Bool.false_eq_true, ite_false]
  rw [patchGo_stable _ _ _ _ _ _ (lines.length - 1) lines.length
    (scanEnd term1 lines i + 1) true (by omega) (by omega)]

theorem patchFrom_anchor_rest (marker sig term1 term2 : α → Bool) (template lines : List α)
    (i : Nat) (h : i < lines.length)
    (ha : anchorAt marker sig lines i = true) :
    patchFrom marker sig term1 term2 template lines i true =
      patchFrom marker sig term1 term2 template lines (scanEnd term2 lines i + 1) true := by
  have hl : lines.length = (lines.length - 1) + 1 := by omega
  have hge := scanEnd_ge term2 lines i
  unfold patchFrom
  conv_lhs => rw [hl]
  simp only [patchGo]
  rw [dif_pos h, if_pos ha]
  simp only [ite_true]
  rw [patchGo_stable _ _ _ _ _ _ (lines.length - 1) lines.length
    (scanEnd term2 lines i + 1) true (by omega) (by omega)]

theorem patch_eq_patchFrom (marker sig term1 term2 : α → Bool) (template lines : List α) :
    patch marker sig term1 term2 template lines =
      patchFrom marker sig term1 term2 template lines 0 false :=
  rfl

theorem blocksGo_stop (marker sig term1 term2 : α → Bool) (lines : List α)
    (fuel i : Nat) (ff : Bool) (h : lines.length ≤ i) :
    blocksGo marker sig term1 term2 lines fuel i ff = [] := by
  cases fuel with
  | zero => rfl
  | succ fuel =>
    simp only [blocksGo]
    rw [if_neg (by omega)]

theorem blocksGo_stable (marker sig term1 term2 : α → Bool) (lines : List α) :
    ∀ (fuel fuel' i : Nat) (ff : Bool),
      lines.length ≤ i + fuel → lines.length ≤ i + fuel' →
      blocksGo marker sig term1 term2 lines fuel i ff =
        blocksGo marker sig term1 term2 lines fuel' i ff := by
  intro fuel
  induction fuel with
  | zero =>
    intro fuel' i ff h h'
    rw [blocksGo_stop _ _ _ _ _ _ _ _ (by omega), blocksGo_stop _ _ _ _ _ _ _ _ (by omega)]
  | succ fuel ih =>
    intro fuel' i ff h h'
    by_cases hi : i < lines.length
    · cases fuel' with
      | zero => omega
      | succ fuel' =>
        simp only [blocksGo]
        rw [if_pos hi, if_pos hi]
        by_cases ha : anchorAt marker sig lines i
        · rw [if_pos ha, if_pos ha]
          cases ff with
          | false =>
            simp only [Bool.false_eq_true, ite_false]
            have hge := scanEnd_ge term1 lines i
            rw [ih fuel' (scanEnd term1 lines i + 1) true (by omega) (by omega)]
          | true =>
            simp only [ite_true]
            have hge := scanEnd_ge term2 lines i
            rw [ih fuel' (scanEnd term2 lines i + 1) true (by omega) (by omega)]
        · rw [if_neg ha, if_neg ha]
          rw [ih fuel' (i + 1) ff (by omega) (by omega)]
    · rw [blocksGo_stop _ _ _ _ _ _ _ _ (by omega), blocksGo_stop _ _ _ _ _ _ _ _ (by omega)]

theorem blocksFrom_stop (marker sig term1 term2 : α → Bool) (lines : List α)
    (i : Nat) (ff : Bool) (h : lines.length ≤ i) :
    blocksFrom marker sig term1 term2 lines i ff = [] :=
  blocksGo_stop _ _ _ _ _ _ _ _ h

theorem blocksFrom_pass (marker sig term1 term2 : α → Bool) (lines : List α)
    (i : Nat) (ff : Bool) (h : i < lines.length)
    (ha : anchorAt marker sig lines i = false) :
    blocksFrom marker sig term1 term2 lines i ff =
      blocksFrom marker sig term1 term2 lines (i + 1) ff := by
  have hl : lines.length = (lines.length - 1) + 1 := by omega
  unfold blocksFrom
  conv_lhs => rw [hl]
  simp only [blocksGo]
  rw [if_pos h, if_neg (by simp [ha])]
  rw [blocksGo_stable _ _ _ _ _ (lines.length - 1) lines.length (i + 1) ff (by omega) (by omega)]

theorem blocksFrom_anchor_first (marker sig term1 term2 : α → Bool) (lines : List α)
    (i : Nat) (h : i < lines.length)
    (ha : anchorAt marker sig lines i = true) :
    blocksFrom marker sig term1 term2 lines i false =
      (i, scanEnd term1 lines i) ::
        blocksFrom marker sig term1 term2 lines (scanEnd term1 lines i + 1) true := by
  have hl : lines.length = (lines.length - 1) + 1 := by omega
  have hge := scanEnd_ge term1 lines i
  unfold blocksFrom
  conv_lhs => rw [hl]
  simp only [blocksGo]
  rw [if_pos h, if_pos ha]
  simp only [Bool.false_eq_true, ite_false]
  rw [blocksGo_stable _ _ _ _ _ (lines.length - 1) lines.length
    (scanEnd term1 lines i + 1) true (by omega) (by omega)]

theorem blocksFrom_anchor_rest (marker sig term1 term2 : α → Bool) (lines : List α)
    (i : Nat) (h : i < lines.length)
    (ha : anchorAt marker sig lines i = true) :
    blocksFrom marker sig term1 term2 lines i true =
      (i, scanEnd term2 lines i) ::
        blocksFrom marker sig term1 term2 lines (scanEnd term2 lines i + 1) true := by
  have hl : lines.length = (lines.length - 1) + 1 := by omega
  have hge := scanEnd_ge term2 lines i
  unfold blocksFrom
  conv_lhs => rw [hl]
  simp only [blocksGo]
  rw [if_pos h, if_pos ha]
  simp only [ite_true]
  rw [blocksGo_stable _ _ _ _ _ (lines.length - 1) lines.length
    (scanEnd term2 lines i + 1) true (by omega) (by omega)]

theorem blocksGo_mem_ge (marker sig term1 term2 : α → Bool) (lines : List α) :
    ∀ (fuel i : Nat) (ff : Bool) (p : Nat × Nat),
      p ∈ blocksGo marker sig term1 term2 lines fuel i ff → i ≤ p.1 := by
  intro fuel
  induction fuel with
  | zero => intro i ff p hp; simp [blocksGo] at hp
  | succ fuel ih =>
    intro i ff p hp
    simp only [blocksGo] at hp
    by_cases hi : i < lines.length
    · rw [if_pos hi] at hp
      by_cases ha : anchorAt marker sig lines i
      · rw [if_pos ha] at hp
        cases ff with
        | false =>
          simp only [Bool.false_eq_true, ite_false, List.mem_cons] at hp
          rcases hp with hp | hp
          · subst hp; exact Nat.le_refl i
          · have := ih _ true p hp
            have hge := scanEnd_ge term1 lines i
            omega
        | true =>
          simp only [ite_true, List.mem_cons] at hp
          rcases hp with hp | hp
          · subst hp; exact Nat.le_refl i
          · have := ih _ true p hp
            have hge := scanEnd_ge term2 lines i
            omega
      · rw [if_neg ha] at hp
        have := ih _ ff p hp
        omega
    · rw [if_neg hi] at hp
      simp at hp

theorem seg_self (lines : List α) (i : Nat) : seg lines i i = [] := by
  apply List.drop_eq_nil_of_le
  simp only [List.length_take]
  omega

theorem seg_zero (lines : List α) (b : Nat) : seg lines 0 b = lines.take b := by
  simp [seg]

theorem seg_cons (lines : List α) (i a : Nat) (h : i < lines.length) (hia : i < a) :
    seg lines i a = lines.get ⟨i, h⟩ :: seg lines (i + 1) a := by
  have hlt : i < (lines.take a).length := by
    simp only [List.length_take]
    omega
  unfold seg
  rw [List.drop_eq_getElem_cons hlt]
  congr 1
  rw [List.getElem_take]
  simp [List.get_eq_getElem]

theorem render_cons (template lines : List α) (i : Nat) (ff : Bool)
    (bs : List (Nat × Nat)) (h : i < lines.length) (hbs : ∀ p ∈ bs, i < p.1) :
    render template lines i ff bs =
      lines.get ⟨i, h⟩ :: render template lines (i + 1) ff bs := by
  cases bs with
  | nil =>
    simp only [render]
    rw [List.drop_eq_getElem_cons h]
    simp [List.get_eq_getElem]
  | cons q bs =>
    obtain ⟨a, e⟩ := q
    have hia : i < a := hbs (a, e) (List.mem_cons_self _ _)
    simp only [render]
    rw [seg_cons lines i a h hia]
    simp [List.cons_append]

theorem patchFrom_eq_render (marker sig term1 term2 : α → Bool) (template lines : List α) :
    ∀ (n i : Nat) (ff : Bool), lines.length - i ≤ n →
      patchFrom marker sig term1 term2 template lines i ff =
        render template lines i ff (blocksFrom marker sig term1 term2 lines i ff) := by
  intro n
  induction n with
  | zero =>
    intro i ff h
    rw [patchFrom_stop _ _ _ _ _ _ _ _ (by omega), blocksFrom_stop _ _ _ _ _ _ _ (by omega)]
    simp only [render]
    rw [List.drop_eq_nil_of_le (by omega)]
  | succ n ih =>
    intro i ff h
    by_cases hi : i < lines.length
    · by_cases ha : anchorAt marker sig lines i
      · cases ff with
        | false =>
          rw [patchFrom_anchor_first _ _ _ _ _ _ _ hi ha,
            blocksFrom_anchor_first _ _ _ _ _ _ hi ha]
          simp only [render, Bool.false_eq_true, ite_false, seg_self, List.nil_append]
          have hge := scanEnd_ge term1 lines i
          rw [ih (scanEnd term1 lines i + 1) true (by omega)]
        | true =>
          rw [patchFrom_anchor_rest _ _ _ _ _ _ _ hi ha,
            blocksFrom_anchor_rest _ _ _ _ _ _ hi ha]
          simp only [render, ite_true, seg_self, List.nil_append]
          have hge := scanEnd_ge term2 lines i
          rw [ih (scanEnd term2 lines i + 1) true (by omega)]
      · rw [patchFrom_pass _ _ _ _ _ _ _ _ hi (by simpa using ha),
          blocksFrom_pass _ _ _ _ _ _ _ hi (by simpa using ha)]
        rw [render_cons _ _ _ _ _ hi]
        · rw [ih (i + 1) ff (by omega)]
        · intro p hp
          have := blocksGo_mem_ge marker sig term1 term2 lines _ _ _ p hp
          omega
    · rw [patchFrom_stop _ _ _ _ _ _ _ _ (by omega), blocksFrom_stop _ _ _ _ _ _ _ (by omega)]
      simp only [render]
      rw [List.drop_eq_nil_of_le (by omega)]

theorem patch_eq_render (marker sig term1 term2 : α → Bool) (template lines : List α) :
    patch marker sig term1 term2 template lines =
      render template lines 0 false (blocksFrom marker sig term1 term2 lines 0 false) :=
  patchFrom_eq_render marker sig term1 term2 template lines lines.length 0 false (by omega)

theorem blocksFrom_skip (marker sig term1 term2 : α → Bool) (lines : List α) :
    ∀ (n a b : Nat) (ff : Bool), b - a ≤ n → a ≤ b → b ≤ lines.length →
      (∀ k, a ≤ k → k < b → anchorAt marker sig lines k = false) →
      blocksFrom marker sig term1 term2 lines a ff =
        blocksFrom marker sig term1 term2 lines b ff := by
  intro n
  induction n with
  | zero =>
    intro a b ff hn hab _ _
    have : a = b := by omega
    rw [this]
  | succ n ih =>
    intro a b ff hn hab hbl hno
    by_cases habe : a = b
    · rw [habe]
    · have hlt : a < b := by omega
      rw [blocksFrom_pass _ _ _ _ _ _ _ (by omega) (hno a (Nat.le_refl a) hlt)]
      exact ih (a + 1) b ff (by omega) (by omega) hbl
        (fun k hk1 hk2 => hno k (by omega) hk2)

theorem blocksFrom_nil (marker sig term1 term2 : α → Bool) (lines : List α)
    (i : Nat) (ff : Bool)
    (hno : ∀ k, i ≤ k → k < lines.length → anchorAt marker sig lines k = false) :
    blocksFrom marker sig term1 term2 lines i ff = [] := by
  by_cases hi : i ≤ lines.length
  · rw [blocksFrom_skip marker sig term1 term2 lines (lines.length - i) i lines.length ff
      (by omega) hi (Nat.le_refl _) hno]
    exact blocksFrom_stop _ _ _ _ _ _ _ (Nat.le_refl _)
  · exact blocksFrom_stop _ _ _ _ _ _ _ (by omega)

theorem blocksGo_true_sound (marker sig term1 term2 : α → Bool) (lines : List α) :
    ∀ (fuel i : Nat) (p : Nat × Nat),
      p ∈ blocksGo marker sig term1 term2 lines fuel i true →
      p.2 = scanEnd term2 lines p.1 := by
  intro fuel
  induction fuel with
  | zero => intro i p hp; simp [blocksGo] at hp
  | succ fuel ih =>
    intro i p hp
    simp only [blocksGo] at hp
    by_cases hi : i < lines.length
    · rw [if_pos hi] at hp
      by_cases ha : anchorAt marker sig lines i
      · rw [if_pos ha] at hp
        simp only [ite_true, List.mem_cons] at hp
        rcases hp with hp | hp
        · subst hp; rfl
        · exact ih _ p hp
      · rw [if_neg ha] at hp
        exact ih _ p hp
    · rw [if_neg hi] at hp
      simp at hp

theorem blocksGo_false_shape (marker sig term1 term2 : α → Bool) (lines : List α) :
    ∀ (fuel i : Nat),
      blocksGo marker sig term1 term2 lines fuel i false = [] ∨
        ∃ a rest, blocksGo marker sig term1 term2 lines fuel i false =
            (a, scanEnd term1 lines a) :: rest ∧
          ∀ p ∈ rest, p.2 = scanEnd term2 lines p.1 := by
  intro fuel
  induction fuel with
  | zero => intro i; exact Or.inl rfl
  | succ fuel ih =>
    intro i
    by_cases hi : i < lines.length
    · by_cases ha : anchorAt marker sig lines i
      · refine Or.inr ⟨i, blocksGo marker sig term1 term2 lines fuel (scanEnd term1 lines i + 1) true, ?_, ?_⟩
        · simp only [blocksGo]
          rw [if_pos hi, if_pos ha]
          simp
        · intro p hp
          exact blocksGo_true_sound marker sig term1 term2 lines fuel _ p hp
      · have hstep : blocksGo marker sig term1 term2 lines (fuel + 1) i false =
            blocksGo marker sig term1 term2 lines fuel (i + 1) false := by
          simp only [blocksGo]
          rw [if_pos hi, if_neg ha]
        rw [hstep]
        exact ih (i + 1)
    · left
      simp only [blocksGo]
      rw [if_neg hi]

theorem render_true_eq_dropBlocks (template lines : List α) :
    ∀ (bs : List (Nat × Nat)) (p : Nat),
      render template lines p true bs = dropBlocks lines p bs := by
  intro bs
  induction bs with
  | nil => intro p; rfl
  | cons q bs ih =>
    intro p
    obtain ⟨a, e⟩ := q
    simp only [render, dropBlocks, ite_true, List.nil_append]
    rw [ih]
    simp

theorem sel_nil (lines : List α) : sel lines [] = [] := rfl

theorem sel_cons (lines : List α) (i : Nat) (ixs : List Nat) (h : i < lines.length) :
    sel lines (i :: ixs) = lines.get ⟨i, h⟩ :: sel lines ixs := by
  simp [sel, List.filterMap_cons, List.getElem?_eq_getElem h, List.get_eq_getElem]

theorem patchFrom_true_sel (marker sig term1 term2 : α → Bool) (template lines : List α) :
    ∀ (n i : Nat), lines.length - i ≤ n →
      ∃ ixs : List Nat, List.Chain' (· < ·) ixs ∧
        (∀ k ∈ ixs, i ≤ k ∧ k < lines.length) ∧
        patchFrom marker sig term1 term2 template lines i true = sel lines ixs := by
  intro n
  induction n with
  | zero =>
    intro i h
    refine ⟨[], List.chain'_nil, by simp, ?_⟩
    rw [patchFrom_stop _ _ _ _ _ _ _ _ (by omega)]
    rfl
  | succ n ih =>
    intro i h
    by_cases hi : i < lines.length
    · by_cases ha : anchorAt marker sig lines i
      · have hge := scanEnd_ge term2 lines i
        obtain ⟨ixs, hc, hb, heq⟩ := ih (scanEnd term2 lines i + 1) (by omega)
        refine ⟨ixs, hc, ?_, ?_⟩
        · intro k hk
          have := hb k hk
          omega
        · rw [patchFrom_anchor_rest _ _ _ _ _ _ _ hi ha]
          exact heq
      · obtain ⟨ixs, hc, hb, heq⟩ := ih (i + 1) (by omega)
        refine ⟨i :: ixs, ?_, ?_, ?_⟩
        · refine List.chain'_cons'.mpr ⟨?_, hc⟩
          intro b hhead
          have hmem : b ∈ ixs := List.mem_of_mem_head? hhead
          have := hb b hmem
          omega
        · intro k hk
          rcases List.mem_cons.mp hk with hk | hk
          · omega
          · have := hb k hk
            omega
        · rw [patchFrom_pass _ _ _ _ _ _ _ _ hi (by simpa using ha)]
          rw [sel_cons lines i ixs hi, heq]
    · refine ⟨[], List.chain'_nil, by simp, ?_⟩
      rw [patchFrom_stop _ _ _ _ _ _ _ _ (by omega)]
      rfl

theorem patchFrom_false_sel (marker sig term1 term2 : α → Bool) (template lines : List α) :
    ∀ (n i : Nat), lines.length - i ≤ n →
      ∃ pre post : List Nat, List.Chain' (· < ·) (pre ++ post) ∧
        (∀ k ∈ pre ++ post, i ≤ k ∧ k < lines.length) ∧
        (patchFrom marker sig term1 term2 template lines i false =
            sel lines pre ++ sel lines post ∨
          patchFrom marker sig term1 term2 template lines i false =
            sel lines pre ++ template ++ sel lines post) := by
  intro n
  induction n with
  | zero =>
    intro i h
    refine ⟨[], [], List.chain'_nil, by simp, Or.inl ?_⟩
    rw [patchFrom_stop _ _ _ _ _ _ _ _ (by omega)]
    rfl
  | succ n ih =>
    intro i h
    by_cases hi : i < lines.length
    · by_cases ha : anchorAt marker sig lines i
      · have hge := scanEnd_ge term1 lines i
        obtain ⟨ixs, hc, hb, heq⟩ :=
          patchFrom_true_sel marker sig term1 term2 template lines
            (lines.length - (scanEnd term1 lines i + 1)) (scanEnd term1 lines i + 1)
            (Nat.le_refl _)
        refine ⟨[], ixs, by simpa using hc, ?_, Or.inr ?_⟩
        · intro k hk
          simp only [List.nil_append] at hk
          have := hb k hk
          omega
        · rw [patchFrom_anchor_first _ _ _ _ _ _ _ hi ha, heq]
          simp [sel_nil]
      · obtain ⟨pre, post, hc, hb, heq⟩ := ih (i + 1) (by omega)
        refine ⟨i :: pre, post, ?_, ?_, ?_⟩
        · rw [List.cons_append]
          refine List.chain'_cons'.mpr ⟨?_, hc⟩
          intro b hhead
          have hmem : b ∈ pre ++ post := List.mem_of_mem_head? hhead
          have := hb b hmem
          omega
        · intro k hk
          rcases List.mem_cons.mp hk with hk | hk
          · omega
          · have := hb k hk
            omega
        · rw [patchFrom_pass _ _ _ _ _ _ _ _ hi (by simpa using ha)]
          rw [sel_cons lines i pre hi]
          rcases heq with heq | heq
          · left
            rw [heq, List.cons_append]
          · right
            rw [heq]
            simp [List.cons_append]
    · refine ⟨[], [], List.chain'_nil, by simp, Or.inl ?_⟩
      rw [patchFrom_stop _ _ _ _ _ _ _ _ (by omega)]
      rfl

/-- If no cursor position passes the anchor test, the scan copies the input
unchanged. -/
theorem patch_id_of_no_anchor (marker sig term1 term2 : α → Bool)
    (template lines : List α)
    (hno : ∀ k, k < lines.length → anchorAt marker sig lines k = false) :
    patch marker sig term1 term2 template lines = lines := by
  rw [patch_eq_render,
    blocksFrom_nil marker sig term1 term2 lines 0 false (fun k _ hk => hno k hk)]
  simp [render]

/-- C1 (amended): when the scan reaches an anchor with the `found_first_route`
flag unset and no line at or after the anchor satisfies the first-occurrence
terminator, the operation does not fail: the inner scan silently consumes every
remaining line, and the output is the lines before the anchor's signature line
followed by the template - the remainder of the input is dropped without any
error. -/
theorem C1_amended (marker sig term1 term2 : α → Bool) (template lines : List α) (i : Nat)
    (h0 : i < lines.length)
    (hpre : ∀ k, k < i → anchorAt marker sig lines k = false)
    (ha : anchorAt marker sig lines i = true)
    (hterm : (lines.drop i).all (fun l => ! term1 l) = true) :
    patch marker sig term1 term2 template lines = lines.take i ++ template := by
  have hse : scanEnd term1 lines i = lines.length :=
    scanEnd_all_missed term1 lines i (by omega) hterm
  have hb1 : blocksFrom marker sig term1 term2 lines 0 false =
      blocksFrom marker sig term1 term2 lines i false :=
    blocksFrom_skip marker sig term1 term2 lines i 0 i false (by omega) (by omega) (by omega)
      (fun k _ hki => hpre k hki)
  have hb2 := blocksFrom_anchor_first marker sig term1 term2 lines i h0 ha
  have hb3 : blocksFrom marker sig term1 term2 lines (scanEnd term1 lines i + 1) true = [] :=
    blocksFrom_stop _ _ _ _ _ _ _ (by omega)
  rw [patch_eq_render, hb1, hb2, hb3]
  simp only [render, Bool.false_eq_true, ite_false, seg_zero]
  rw [hse, List.drop_eq_nil_of_le (by omega)]
  simp

/-- C1 (amended), witness: on `exUnresolved` the anchor at position 2 has no
first-occurrence terminator after it, and the output is the two lines before the
signature line plus the template. -/
theorem C1_witness :
    (exUnresolved.drop 2).all (fun l => ! litEq "t" l) = true ∧
      patch (litEq "m") (litEq "s") (litEq "t") (litEq "u") ["T"] exUnresolved =
        exUnresolved.take 2 ++ ["T"] :=
  ⟨by decide,
    C1_amended (litEq "m") (litEq "s") (litEq "t") (litEq "u") ["T"] exUnresolved 2
      (by decide) (by decide) (by decide) (by decide)⟩

/-- C2 (amended): for an input whose only anchor-test hit is at position `i`,
the output equals the lines strictly before the anchor's signature line -
these include its marker line - followed by the template, followed by the lines
strictly after the terminator line found by the first-occurrence scan. -/
theorem C2_amended (marker sig term1 term2 : α → Bool) (template lines : List α) (i : Nat)
    (h0 : i < lines.length)
    (h1 : ∀ k, k < lines.length → (anchorAt marker sig lines k = true ↔ k = i))
    (h2 : scanEnd term1 lines i < lines.length) :
    patch marker sig term1 term2 template lines =
      lines.take i ++ template ++ lines.drop (scanEnd term1 lines i + 1) := by
  have ha : anchorAt marker sig lines i = true := (h1 i h0).mpr rfl
  have hge := scanEnd_ge term1 lines i
  have hb1 : blocksFrom marker sig term1 term2 lines 0 false =
      blocksFrom marker sig term1 term2 lines i false :=
    blocksFrom_skip marker sig term1 term2 lines i 0 i false (by omega) (by omega) (by omega)
      (fun k _ hki => by
        cases hcase : anchorAt marker sig lines k with
        | false => rfl
        | true => exact absurd ((h1 k (by omega)).mp hcase) (by omega))
  have hb2 := blocksFrom_anchor_first marker sig term1 term2 lines i h0 ha
  have hb3 : blocksFrom marker sig term1 term2 lines (scanEnd term1 lines i + 1) true = [] :=
    blocksFrom_nil marker sig term1 term2 lines _ true (fun k hk hkl => by
      cases hcase : anchorAt marker sig lines k with
      | false => rfl
      | true => exact absurd ((h1 k hkl).mp hcase) (by omega))
  rw [patch_eq_render, hb1, hb2, hb3]
  simp only [render, Bool.false_eq_true, ite_false, seg_zero]

/-- C2 (amended), witness: on `exSingle` with its single anchor at position 1,
terminator at position 2, the output keeps the marker line at position 0. -/
theorem C2_witness :
    1 < exSingle.length ∧ scanEnd (litEq "e") exSingle 1 < exSingle.length ∧
      patch (litEq "m") (litEq "s") (litEq "e") (litEq "e") ["T"] exSingle =
        exSingle.take 1 ++ ["T"] ++ exSingle.drop (scanEnd (litEq "e") exSingle 1 + 1) :=
  ⟨by decide, by decide,
    C2_amended (litEq "m") (litEq "s") (litEq "e") (litEq "e") ["T"] exSingle 1
      (by decide) (by decide) (by decide)⟩

/-- C3 (amended): when the scan matches at least two blocks, each with its
terminator found before the end of the sequence, the output is the lines before
the first block's signature line (its marker line included), the template
exactly once, and then the input minus the later blocks' spans - each later
block is omitted from its signature line through its terminator line, while its
marker line and every line outside the matched spans appear unchanged and in
the original relative order. -/
theorem C3_amended (marker sig term1 term2 : α → Bool) (template lines : List α)
    (a e : Nat) (rest : List (Nat × Nat))
    (hbs : blocksFrom marker sig term1 term2 lines 0 false = (a, e) :: rest)
    (_hN : rest ≠ [])
    (_hres : ∀ p ∈ (a, e) :: rest, p.2 < lines.length) :
    patch marker sig term1 term2 template lines =
      lines.take a ++ template ++ dropBlocks lines (e + 1) rest := by
  rw [patch_eq_render, hbs]
  simp only [render, Bool.false_eq_true, ite_false, seg_zero]
  rw [render_true_eq_dropBlocks]

/-- C3 (amended), witness: on `exMulti` the scan finds the blocks `(2, 4)` and
`(6, 8)`; the output keeps both marker lines and the lines `X`, `Y`. -/
theorem C3_witness :
    blocksFrom (litEq "m") (litEq "s") (litEq "e") (litEq "e") exMulti 0 false =
        (2, 4) :: [(6, 8)] ∧
      ([(6, 8)] : List (Nat × Nat)) ≠ [] ∧
      patch (litEq "m") (litEq "s") (litEq "e") (litEq "e") ["T"] exMulti =
        exMulti.take 2 ++ ["T"] ++ dropBlocks exMulti (4 + 1) [(6, 8)] :=
  ⟨by decide, by decide,
    C3_amended (litEq "m") (litEq "s") (litEq "e") (litEq "e") ["T"] exMulti 2 4 [(6, 8)]
      (by decide) (by decide) (by decide)⟩

/-- C6 (amended): for every block matched by the scan, the block's end is the
first position at or after its anchor whose line satisfies the terminator
predicate selected by the block's occurrence ordinal - the first-occurrence
terminator for the block at list position 0, the later-occurrence terminator
for every other block; every line strictly between the anchor and the end
fails that predicate, and the line at the end (when the end is inside the
sequence) satisfies it.  In the script the two predicates are distinct:
`".toArray();"` for the first occurrence and `"});"` for the rest. -/
theorem C6_amended (marker sig term1 term2 : α → Bool) (lines : List α)
    (k a e : Nat)
    (hb : (blocksFrom marker sig term1 term2 lines 0 false)[k]? = some (a, e)) :
    a ≤ e ∧
      e = scanEnd (if k = 0 then term1 else term2) lines a ∧
      (∀ j x, a ≤ j → j < e → lines[j]? = some x →
        (if k = 0 then term1 else term2) x = false) ∧
      (∀ x, lines[e]? = some x → (if k = 0 then term1 else term2) x = true) := by
  have hbf : blocksFrom marker sig term1 term2 lines 0 false =
      blocksGo marker sig term1 term2 lines lines.length 0 false := rfl
  have hmain : e = scanEnd (if k = 0 then term1 else term2) lines a := by
    rcases blocksGo_false_shape marker sig term1 term2 lines lines.length 0 with hnil |
      ⟨a0, rest, hcons, hrest⟩
    · rw [hbf, hnil] at hb
      simp at hb
    · rw [hbf, hcons] at hb
      cases k with
      | zero =>
        simp only [List.getElem?_cons_zero, Option.some.injEq, Prod.mk.injEq] at hb
        obtain ⟨hb1, hb2⟩ := hb
        simp only [ite_true]
        rw [← hb2, ← hb1]
      | succ k =>
        simp only [List.getElem?_cons_succ] at hb
        have hmem : (a, e) ∈ rest := List.getElem?_mem hb
        have := hrest _ hmem
        simpa using this
  refine ⟨?_, hmain, ?_, ?_⟩
  · rw [hmain]
    exact scanEnd_ge _ lines a
  · intro j x haj hje hx
    exact scanEnd_min _ lines a j x haj (by rw [← hmain]; exact hje) hx
  · intro x hx
    exact scanEnd_hit _ lines a x (by rw [← hmain]; exact hx)

/-- C6 (amended), witness: on `exTwoTerms` the block at list position 1 (the
second occurrence) spans `(5, 7)`, and its end is the first later-occurrence
terminator position at or after 5, not the first first-occurrence terminator
position. -/
theorem C6_witness :
    1 < (blocksFrom fixOrdersMarker fixOrdersSig fixOrdersTerm1 fixOrdersTerm2
          exTwoTerms 0 false).length ∧
      7 = scanEnd (if 1 = 0 then fixOrdersTerm1 else fixOrdersTerm2) exTwoTerms 5 :=
  ⟨by decide,
    (C6_amended fixOrdersMarker fixOrdersSig fixOrdersTerm1 fixOrdersTerm2 exTwoTerms
      1 5 7 (by decide)).2.1⟩

/-- C8: the scan is total and deterministic.  The loop's cursor strictly
increases, so any iteration budget of at least `lines.length` computes the same
result as `patch` - the while loop always reaches its exit condition within
`lines.length` iterations - and equal inputs give equal outputs. -/
theorem C8_total_deterministic (marker sig term1 term2 : α → Bool)
    (template lines : List α) (k : Nat) (hk : lines.length ≤ k) :
    patchGo marker sig term1 term2 template lines k 0 false =
      patch marker sig term1 term2 template lines ∧
      ∀ lines2, lines = lines2 →
        patch marker sig term1 term2 template lines =
          patch marker sig term1 term2 template lines2 := by
  constructor
  · exact patchGo_stable marker sig term1 term2 template lines k lines.length 0 false
      (by omega) (by omega)
  · intro lines2 h
    rw [h]

/-- C8, witness: on `exSingle` the scan with budget 9 equals `patch`. -/
theorem C8_witness :
    exSingle.length ≤ 9 ∧
      patchGo (litEq "m") (litEq "s") (litEq "e") (litEq "e") ["T"] exSingle 9 0 false =
        patch (litEq "m") (litEq "s") (litEq "e") (litEq "e") ["T"] exSingle :=
  ⟨by decide,
    (C8_total_deterministic (litEq "m") (litEq "s") (litEq "e") (litEq "e") ["T"] exSingle 9
      (by decide)).1⟩

/-- C10: every line of the output is either an input line or a template line;
the input lines that appear are taken at strictly increasing (hence distinct)
input positions, so they keep their original relative order, and the template
lines appear as at most one contiguous run spliced in at a single position. -/
theorem C10_line_provenance (marker sig term1 term2 : α → Bool)
    (template lines : List α) :
    ∃ pre post : List Nat,
      List.Chain' (· < ·) (pre ++ post) ∧
        (∀ k ∈ pre ++ post, k < lines.length) ∧
        (patch marker sig term1 term2 template lines =
            sel lines pre ++ sel lines post ∨
          patch marker sig term1 term2 template lines =
            sel lines pre ++ template ++ sel lines post) := by
  obtain ⟨pre, post, hc, hb, heq⟩ :=
    patchFrom_false_sel marker sig term1 term2 template lines lines.length 0 (by omega)
  exact ⟨pre, post, hc, fun k hk => (hb k hk).2, heq⟩

end FixOrders
